import Mathlib

/-!
Zenith Life Engine: task parser and focus queue.

A shallow embedding of the state logic of `src/zenith-life-os/app.js`
(class `ZenithEngine`): `parseInput`, `addTask`, `setFocus`,
`completeCurrent`, `deferCurrent`, `promoteNextTask`, `loadState` and the
constructor.

Modelling conventions.

* A JavaScript string is a list of characters (`JSString`).  All keywords the
  program looks for are made of characters of the Basic Multilingual Plane, so
  searching code points and searching UTF-16 code units agree.
* Task objects live in an object store (`heap`) and are named by references;
  `state.tasks` is a list of references and `currentFocus` an optional
  reference, so that aliasing between the focus and the pending list, and the
  in-place write `task.priority = 1`, are represented as in the program.
* What the JavaScript host supplies (Unicode lower-casing, the local time zone,
  the civil calendar) is gathered in `Host`; results are proved for every host.
* A time stamp is a time value: an integer number of milliseconds since the
  epoch.  `toISOString` renders a time value in a fixed format and is not
  modelled: the fields `createdAt`, `due`, `completedAt` hold the time value.
* `Array.prototype.sort` is stable and the comparator of `promoteNextTask` is a
  total preorder on the tasks, so the sorted array is determined; it is
  computed by a stable insertion sort.
* The zone of the host is ECMAScript's `LocalTZA(t, isUTC)`, so that zones
  which change their clocks are covered; `latinHost` is Europe/Madrid and
  `nuukHost` America/Nuuk, both around their changes of 2026.
* What the specification says of the parser is written a second time, from its
  words and without the definitions that follow the program: `Occurs` for
  containing a keyword, `StripsTo` over `IsToken` and `SameLetter` for
  stripping the tokens whatever their case, `IsTrimOf` over `IsBlank` for
  trimming, `localDay` and `localClock` for the calendar day and the time of
  day.  The program's `includes`, `replaceUrgency`, `trim`, `setDate` and
  `setHours` are shown to compute them.
-/

namespace Zenith

/-! ## Strings -/

/-- A JavaScript string. -/
abbrev JSString := List Char

/-- The code points `String.prototype.trim` removes: ECMAScript WhiteSpace and
LineTerminator. -/
def isWhiteSpace (c : Char) : Bool :=
  let n := c.toNat
  n == 0x09 || n == 0x0A || n == 0x0B || n == 0x0C || n == 0x0D || n == 0x20 ||
  n == 0xA0 || n == 0x1680 || (0x2000 ≤ n && n ≤ 0x200A) || n == 0x2028 ||
  n == 0x2029 || n == 0x202F || n == 0x205F || n == 0x3000 || n == 0xFEFF

/-- `String.prototype.trimStart`. -/
def trimStart (s : JSString) : JSString := s.dropWhile isWhiteSpace

/-- `String.prototype.trimEnd`. -/
def trimEnd (s : JSString) : JSString := (s.reverse.dropWhile isWhiteSpace).reverse

/-- `String.prototype.trim`. -/
def trim (s : JSString) : JSString := trimEnd (trimStart s)

/-- `String.prototype.includes`: does `p` occur in `s` as a contiguous run? -/
def includes : JSString → JSString → Bool
  | [], p => p.isEmpty
  | c :: cs, p => p.isPrefixOf (c :: cs) || includes cs p

/-- Canonicalisation of a character by a regular expression with the `i` flag
and without the `u` flag, restricted to what matters when the pattern character
is a Basic Latin letter: a Basic Latin lower-case letter is mapped to its
upper-case form, and no character outside Basic Latin is ever mapped into
Basic Latin. -/
def canonicalize (c : Char) : Char := c.toUpper

/-- Match the literal `p` at the start of `s`, ignoring case; the rest of the
input after the match. -/
def matchLiteral : JSString → JSString → Option JSString
  | [], s => some s
  | _ :: _, [] => none
  | p :: ps, c :: cs =>
    if canonicalize p = canonicalize c then matchLiteral ps cs else none

/-- The alternatives of the pattern `/(urgente|ahora|ya)/gi`, in order. -/
def urgencyAlternatives : List JSString :=
  ["urgente".toList, "ahora".toList, "ya".toList]

/-- Try the alternatives in order at the start of `s`; the length of the first
one that matches. -/
def matchAlternatives : List JSString → JSString → Option Nat
  | [], _ => none
  | p :: ps, s =>
    match matchLiteral p s with
    | some _ => some p.length
    | none => matchAlternatives ps s

/-- The loop of `String.prototype.replace` with a global pattern and the empty
replacement: scan from the left; where the pattern matches, drop the match and
resume right after it; elsewhere keep the character.  `skip` counts the
characters of the current match still to drop. -/
def replaceGlobal (alts : List JSString) : Nat → JSString → JSString
  | _, [] => []
  | skip + 1, _ :: cs => replaceGlobal alts skip cs
  | 0, c :: cs =>
    match matchAlternatives alts (c :: cs) with
    | some n => replaceGlobal alts (n - 1) cs
    | none => c :: replaceGlobal alts 0 cs

/-- The call `title.replace(/(urgente|ahora|ya)/gi, '')`. -/
def replaceUrgency (s : JSString) : JSString := replaceGlobal urgencyAlternatives 0 s

/-! ## Time values -/

/-- Milliseconds in a day. -/
def msPerDay : Int := 86400000

/-- ECMAScript `Day(t)`. -/
def Day (t : Int) : Int := t / msPerDay

/-- ECMAScript `TimeWithinDay(t)`. -/
def TimeWithinDay (t : Int) : Int := t % msPerDay

/-- ECMAScript `MakeTime(hour, min, sec, ms)`. -/
def MakeTime (hour min sec ms : Int) : Int :=
  hour * 3600000 + min * 60000 + sec * 1000 + ms

/-- ECMAScript `MakeDate(day, time)`. -/
def MakeDate (day time : Int) : Int := day * msPerDay + time

/-- What the JavaScript host supplies to the program. -/
structure Host where
  /-- The function `String.prototype.toLowerCase`. -/
  toLowerCase : JSString → JSString
  /-- ECMAScript `LocalTZA(t, isUTC)`, the offset of local time from UTC in
  milliseconds.  With `isUTC` true, `t` is an instant and the result the offset
  in force at it; with `isUTC` false, `t` is a local time value and the result
  the offset that local time is read with (a local time skipped or repeated by
  a change of the clocks is read with the offset before the change). -/
  localTZA : Int → Bool → Int
  /-- The civil calendar: the day number of the first day of the month that
  contains the given day number. -/
  monthStartDay : Int → Int

/-- ECMAScript `LocalTime(t)`. -/
def LocalTime (h : Host) (t : Int) : Int := t + h.localTZA t true

/-- ECMAScript `UTC(t)`. -/
def UTC (h : Host) (t : Int) : Int := t - h.localTZA t false

/-- ECMAScript `DateFromTime(t)`: the day of the month, from 1. -/
def DateFromTime (h : Host) (t : Int) : Int := Day t - h.monthStartDay (Day t) + 1

/-- ECMAScript `MakeDay(YearFromTime(t), MonthFromTime(t), dt)`: the day number
of the first day of the month of `t`, plus `dt - 1`. -/
def MakeDay (h : Host) (t dt : Int) : Int := h.monthStartDay (Day t) + dt - 1

/-- `Date.prototype.getDate` on the date with time value `tv`. -/
def getDate (h : Host) (tv : Int) : Int := DateFromTime h (LocalTime h tv)

/-- `Date.prototype.setDate(dt)`: the new time value. -/
def setDate (h : Host) (tv dt : Int) : Int :=
  let t := LocalTime h tv
  UTC h (MakeDate (MakeDay h t dt) (TimeWithinDay t))

/-- `Date.prototype.setHours(hour, min, sec, ms)`: the new time value. -/
def setHours (h : Host) (tv hour min sec ms : Int) : Int :=
  let t := LocalTime h tv
  UTC h (MakeDate (Day t) (MakeTime hour min sec ms))

/-! ## Tasks and the parser -/

/-- The field `status`. -/
inductive Status where
  | pending
  | completed
deriving DecidableEq, Repr

/-- A task object. -/
structure Task where
  id : Int
  title : JSString
  createdAt : Int
  due : Option Int
  priority : Int
  status : Status
deriving DecidableEq, Repr

/-- The three readings of the clock made by one call of `parseInput`:
`Date.now()` for the id, `new Date()` for `createdAt`, `new Date()` for
`now`. -/
structure ClockReads where
  idNow : Int
  createdNow : Int
  dueNow : Int
deriving DecidableEq, Repr

/-- The keyword for tomorrow. -/
def kwTomorrow : JSString := "mañana".toList

/-- The keyword for today. -/
def kwToday : JSString := "hoy".toList

/-- Method `parseInput(text)`. -/
def parseInput (h : Host) (text : JSString) (clk : ClockReads) : Task :=
  let task : Task :=
    { id := clk.idNow, title := text, createdAt := clk.createdNow, due := none,
      priority := 1, status := Status.pending }
  let lower := h.toLowerCase text
  let now := clk.dueNow
  let task :=
    if includes lower kwTomorrow then
      let tmr := now
      let tmr := setDate h tmr (getDate h tmr + 1)
      let tmr := setHours h tmr 9 0 0 0
      { task with due := some tmr }
    else if includes lower kwToday then
      let today := now
      let today := setHours h today 20 0 0 0
      { task with due := some today }
    else task
  if includes lower "urgente".toList || includes lower "ahora".toList ||
      includes lower "ya".toList then
    { task with priority := 3, title := trim (replaceUrgency task.title) }
  else task

/-! ## A concrete host, to run the definitions -/

/-- Lower-casing of one character of Basic Latin or the Latin-1 Supplement;
other characters are left alone. -/
def lowerLatin1 (c : Char) : Char :=
  let n := c.toNat
  if (0x41 ≤ n ∧ n ≤ 0x5A) ∨ (0xC0 ≤ n ∧ n ≤ 0xDE ∧ n ≠ 0xD7) then Char.ofNat (n + 32)
  else c

/-- Day of the month (from 1) of the day with the given number (days since
1970-01-01) in the proleptic Gregorian calendar. -/
def civilDayOfMonth (d : Int) : Int :=
  let z := d + 719468
  let doe := z % 146097
  let yoe := (doe - doe / 1460 + doe / 36524 - doe / 146096) / 365
  let doy := doe - (365 * yoe + yoe / 4 - yoe / 100)
  let mp := (5 * doy + 2) / 153
  doy - (153 * mp + 2) / 5 + 1

/-- The offsets of the zone Europe/Madrid from 2025-10-26 to 2027-03-28:
UTC+01:00, and UTC+02:00 from 2026-03-29T01:00Z (1774746000000) to
2026-10-25T01:00Z (1792890000000).  Local time values are read with UTC+02:00
from 03:00 on 2026-03-29 (1774753200000) up to 03:00 on 2026-10-25
(1792897200000): the skipped hour and the repeated hour take the offset in
force before the change. -/
def madridTZA (t : Int) (isUTC : Bool) : Int :=
  if isUTC then
    if 1774746000000 ≤ t ∧ t < 1792890000000 then 7200000 else 3600000
  else
    if 1774753200000 ≤ t ∧ t < 1792897200000 then 7200000 else 3600000

/-- A host whose `toLowerCase` agrees with the real one on strings of Basic
Latin and Latin-1 characters, in the zone Europe/Madrid with its change to
summer time and back in 2026, with the Gregorian calendar. -/
def latinHost : Host where
  toLowerCase := fun s => s.map lowerLatin1
  localTZA := madridTZA
  monthStartDay := fun d => d - (civilDayOfMonth d - 1)

/-- The offsets of the zone America/Nuuk from 2025-10-26 to 2027-03-28:
UTC-02:00, and UTC-01:00 from 2026-03-29T01:00Z (1774746000000) to
2026-10-25T01:00Z (1792890000000).  The clocks go from 23:00 on Saturday
2026-03-28 straight to 00:00 on Sunday.  Local time values are read with
UTC-01:00 from 00:00 on 2026-03-29 (1774742400000) up to 00:00 on 2026-10-25
(1792886400000): the skipped hour and the repeated hour take the offset in
force before the change. -/
def nuukTZA (t : Int) (isUTC : Bool) : Int :=
  if isUTC then
    if 1774746000000 ≤ t ∧ t < 1792890000000 then -3600000 else -7200000
  else
    if 1774742400000 ≤ t ∧ t < 1792886400000 then -3600000 else -7200000

/-- The host `latinHost`, moved to the zone America/Nuuk. -/
def nuukHost : Host where
  toLowerCase := fun s => s.map lowerLatin1
  localTZA := nuukTZA
  monthStartDay := fun d => d - (civilDayOfMonth d - 1)

/-! ## The engine -/

/-- A reference to a task object. -/
abbrev Ref := Nat

/-- An entry of `state.history`: the object
`{...currentFocus, status: 'completed', completedAt}`. -/
structure CompletedTask where
  id : Int
  title : JSString
  createdAt : Int
  due : Option Int
  priority : Int
  status : Status
  completedAt : Int
deriving DecidableEq, Repr

/-- The field `state.user`. -/
structure User where
  name : JSString
  energy : Int
deriving DecidableEq, Repr

/-- The field `state.settings`. -/
structure Settings where
  theme : JSString
deriving DecidableEq, Repr

/-- An instance of `ZenithEngine` together with the task objects it refers to.
`heap` is the object store and `nextRef` the next unused reference; `user`,
`tasks`, `history`, `settings` are the fields of `this.state`. -/
structure Engine where
  heap : Ref → Task
  nextRef : Ref
  user : User
  tasks : List Ref
  history : List CompletedTask
  settings : Settings
  currentFocus : Option Ref

/-- The comparator passed to `sort` in `promoteNextTask`. -/
def compareTasks (a b : Task) : Int :=
  if b.priority ≠ a.priority then b.priority - a.priority else b.id - a.id

/-- The order `Array.prototype.sort` establishes between the referenced
objects: `a` may precede `b` when the comparator is not positive. -/
def sortsBefore (heap : Ref → Task) (a b : Ref) : Prop :=
  compareTasks (heap a) (heap b) ≤ 0

instance (heap : Ref → Task) : DecidableRel (sortsBefore heap) :=
  fun a b => inferInstanceAs (Decidable (compareTasks (heap a) (heap b) ≤ 0))

/-- Method `promoteNextTask()`.  `Array.prototype.sort` is stable and the
comparator is a consistent one, so its result is the stable sort of the array,
computed here by insertion. -/
def promoteNextTask (e : Engine) : Engine :=
  let e := { e with tasks := e.tasks.insertionSort (sortsBefore e.heap) }
  if 0 < e.tasks.length then
    { e with currentFocus := e.tasks[0]? }
  else
    { e with currentFocus := none }

/-- Method `addTask(text)`.  `arg` is the argument when it is a string and
`none` when it is anything else; `taskInput` is the value of the input element
`taskInput` at the time of the call. -/
def addTask (h : Host) (e : Engine) (arg : Option JSString) (taskInput : JSString)
    (clk : ClockReads) : Engine :=
  let text :=
    match arg with
    | some s => if s.isEmpty then taskInput else s
    | none => taskInput
  if (trim text).isEmpty then e
  else
    let task := parseInput h text clk
    let r := e.nextRef
    let e := { e with heap := Function.update e.heap r task, nextRef := r + 1 }
    let e := { e with tasks := e.tasks ++ [r] }
    match e.currentFocus with
    | none => { e with currentFocus := some r }
    | some f =>
      if (e.heap r).priority > (e.heap f).priority then { e with currentFocus := some r }
      else e

/-- Method `setFocus(task)`. -/
def setFocus (e : Engine) (task : Ref) : Engine :=
  { e with currentFocus := some task }

/-- Method `completeCurrent()`; `now` is the reading of the clock. -/
def completeCurrent (e : Engine) (now : Int) : Engine :=
  match e.currentFocus with
  | none => e
  | some f =>
    let cur := e.heap f
    let completedTask : CompletedTask :=
      { id := cur.id, title := cur.title, createdAt := cur.createdAt, due := cur.due,
        priority := cur.priority, status := Status.completed, completedAt := now }
    let e := { e with history := completedTask :: e.history }
    let e := { e with tasks := e.tasks.filter fun t => decide ((e.heap t).id ≠ (e.heap f).id) }
    promoteNextTask e

/-- Method `deferCurrent()`. -/
def deferCurrent (e : Engine) : Engine :=
  match e.currentFocus with
  | none => e
  | some task =>
    let e := { e with heap := Function.update e.heap task { e.heap task with priority := 1 } }
    let e := { e with tasks := e.tasks.filter fun t => decide ((e.heap t).id ≠ (e.heap task).id) }
    let e := { e with tasks := e.tasks ++ [task] }
    promoteNextTask e

/-! ## Loading -/

/-- The object kept under `STATE_KEY`, once parsed. -/
structure PersistedState where
  user : User
  tasks : List Task
  history : List CompletedTask
  settings : Settings
deriving DecidableEq, Repr

/-- What `JSON.parse` does with a string: it throws a `SyntaxError`, or returns
a falsy value (`null`, `false`, `0`, `""`), or returns a state object. -/
inductive Parsed where
  | syntaxError (message : JSString)
  | falsy
  | object (st : PersistedState)
deriving DecidableEq, Repr

/-- Method `loadState()`; `saved` is `localStorage.getItem(STATE_KEY)` and
`jsonParse` the host function `JSON.parse`.  The result is the error thrown, or
the value returned (`none` for `null` and the other falsy values). -/
def loadState (jsonParse : JSString → Parsed) (saved : Option JSString) :
    Except JSString (Option PersistedState) :=
  match saved with
  | none => Except.ok none
  | some s =>
    if s.isEmpty then Except.ok none
    else
      match jsonParse s with
      | Parsed.syntaxError m => Except.error m
      | Parsed.falsy => Except.ok none
      | Parsed.object st => Except.ok (some st)

/-- The object literal of the constructor. -/
def defaultState : PersistedState :=
  { user := { name := "Traveler".toList, energy := 100 }, tasks := [], history := [],
    settings := { theme := "void".toList } }

/-- An object no reference of a loaded engine points to. -/
def unallocated : Task :=
  { id := 0, title := [], createdAt := 0, due := none, priority := 0, status := Status.pending }

/-- The engine holding a state object: its tasks are the objects
`0, 1, ..` of the store, and nothing is focused. -/
def engineOf (st : PersistedState) : Engine :=
  { heap := fun r => st.tasks.getD r unallocated
    nextRef := st.tasks.length
    user := st.user
    tasks := List.range st.tasks.length
    history := st.history
    settings := st.settings
    currentFocus := none }

/-- The constructor of `ZenithEngine`: the error thrown, or the new instance. -/
def constructor (jsonParse : JSString → Parsed) (saved : Option JSString) :
    Except JSString Engine :=
  match loadState jsonParse saved with
  | Except.error m => Except.error m
  | Except.ok loaded => Except.ok (engineOf (loaded.getD defaultState))

/-- The tasks of the pending list, as objects. -/
def Engine.pending (e : Engine) : List Task := e.tasks.map e.heap

/-- The focused task, as an object. -/
def Engine.focus (e : Engine) : Option Task := e.currentFocus.map e.heap

/-! ## The parser, as the specification words it

The definitions of this section are written from the wording of the
specification and do not use the definitions above. -/

/-- The string `p` occurs in `s` as a substring. -/
def Occurs (p s : JSString) : Prop :=
  ∃ u v, s = u ++ p ++ v

/-- The character `c` is the lower-case letter `p` in either case: `p` itself,
or its capital, which lies 32 code points below. -/
def SameLetter (p c : Char) : Prop :=
  c = p ∨ c.toNat + 32 = p.toNat

/-- The string `m` is one of the tokens "urgente", "ahora", "ya", whatever the
case of each of its letters. -/
def IsToken (m : JSString) : Prop :=
  ∃ p ∈ ["urgente".toList, "ahora".toList, "ya".toList], List.Forall₂ SameLetter p m

/-- An occurrence of a token begins at the start of `s`. -/
def TokenAtStart (s : JSString) : Prop :=
  ∃ m rest, IsToken m ∧ s = m ++ rest

/-- Specification of the stripping: `StripsTo s out` holds when `out` is `s`
with all occurrences of the tokens removed, reading from the left: an
occurrence that begins at the current position is removed whole, and a
character at which no occurrence begins is kept. -/
inductive StripsTo : JSString → JSString → Prop where
  | done : StripsTo [] []
  | drop (m rest out : JSString) : IsToken m → StripsTo rest out → StripsTo (m ++ rest) out
  | keep (c : Char) (s out : JSString) :
      ¬ TokenAtStart (c :: s) → StripsTo s out → StripsTo (c :: s) (c :: out)

/-- The code points of white space and of line terminators: tab, line feed,
vertical tab, form feed, carriage return, space, no-break space, ogham space
mark, the spaces from en quad to hair space, line separator, paragraph
separator, narrow no-break space, medium mathematical space, ideographic space,
zero width no-break space. -/
def blankCodePoints : List Nat :=
  [9, 10, 11, 12, 13, 32, 160, 5760, 8192, 8193, 8194, 8195, 8196, 8197, 8198, 8199, 8200,
   8201, 8202, 8232, 8233, 8239, 8287, 12288, 65279]

/-- The character `c` is white space, or ends a line. -/
def IsBlank (c : Char) : Prop :=
  c.toNat ∈ blankCodePoints

/-- The string `t` is `s` trimmed: `s` is `t` between two runs of blanks, and
`t` neither starts nor ends with a blank. -/
def IsTrimOf (s t : JSString) : Prop :=
  ∃ pre post, s = pre ++ t ++ post ∧ (∀ c ∈ pre, IsBlank c) ∧ (∀ c ∈ post, IsBlank c) ∧
    (∀ c, t.head? = some c → ¬ IsBlank c) ∧ (∀ c, t.getLast? = some c → ¬ IsBlank c)

/-- The local time value the zone of the host shows at the instant `t`. -/
def localValue (h : Host) (t : Int) : Int :=
  t + h.localTZA t true

/-- The number of the local calendar day (days since 1970-01-01) at the
instant `t`. -/
def localDay (h : Host) (t : Int) : Int :=
  (t + h.localTZA t true) / 86400000

/-- The local time of day at the instant `t`, in milliseconds since local
midnight. -/
def localClock (h : Host) (t : Int) : Int :=
  (t + h.localTZA t true) % 86400000

/-- The instant at which the zone of the host reads the local time value
`x`. -/
def instantOf (h : Host) (x : Int) : Int :=
  x - h.localTZA x false

/-- The local time value `x` exists in the zone: the zone shows `x` at the
instant it reads `x` at.  (It fails for a local time skipped by a change of the
clocks.) -/
def ExistsLocally (h : Host) (x : Int) : Prop :=
  localValue h (instantOf h x) = x

/-- At the instant at which it reads the local time value `x`, the zone shows a
time of the same calendar day as `x`.  (A local time skipped by a change of the
clocks is shown moved by the size of the change; this says the move does not
cross midnight.) -/
def KeepsDay (h : Host) (x : Int) : Prop :=
  localDay h (instantOf h x) = x / 86400000

/-! ## Sample runs -/

/-- A fresh engine: nothing is stored. -/
def engine0 : Engine := engineOf defaultState

/-- After adding the task "leer". -/
def engine1 : Engine :=
  addTask latinHost engine0 (some "leer".toList) [] ⟨1762297200001, 1762297200001, 1762297200001⟩

/-- After adding the task "urgente pagar" as well. -/
def engine2 : Engine :=
  addTask latinHost engine1 (some "urgente pagar".toList) []
    ⟨1762297200002, 1762297200002, 1762297200002⟩

/-- After adding the task "correr" as well. -/
def engine3 : Engine :=
  addTask latinHost engine2 (some "correr".toList) []
    ⟨1762297200003, 1762297200003, 1762297200003⟩

/-- The states the engine can be in: it starts with nothing focused, and then
the methods are called in any order, `setFocus` only with a task of the pending
list. -/
inductive Reachable (h : Host) : Engine → Prop where
  | init (e : Engine) (h0 : e.currentFocus = none) : Reachable h e
  | addTask (e : Engine) (arg : Option JSString) (taskInput : JSString) (clk : ClockReads) :
      Reachable h e → Reachable h (addTask h e arg taskInput clk)
  | setFocus (e : Engine) (task : Ref) (hmem : task ∈ e.tasks) :
      Reachable h e → Reachable h (setFocus e task)
  | completeCurrent (e : Engine) (now : Int) :
      Reachable h e → Reachable h (completeCurrent e now)
  | deferCurrent (e : Engine) :
      Reachable h e → Reachable h (deferCurrent e)
  | promoteNextTask (e : Engine) :
      Reachable h e → Reachable h (promoteNextTask e)

/-- References handed out so far are below `nextRef`. -/
def Engine.WF (e : Engine) : Prop :=
  (∀ r ∈ e.tasks, r < e.nextRef) ∧ ∀ f, e.currentFocus = some f → f < e.nextRef

/-! ## Basic facts -/

theorem trim_eq_nil_of_all_white (s : JSString) (hs : ∀ c ∈ s, isWhiteSpace c = true) :
    trim s = [] := by
  have h1 : trimStart s = [] := by
    unfold trimStart
    induction s with
    | nil => rfl
    | cons c cs ih =>
      rw [List.dropWhile_cons, if_pos (hs c (List.mem_cons_self _ _))]
      exact ih fun d hd => hs d (List.mem_cons_of_mem _ hd)
  simp [trim, h1, trimEnd]

theorem promoteNextTask_tasks (e : Engine) :
    (promoteNextTask e).tasks = e.tasks.insertionSort (sortsBefore e.heap) := by
  unfold promoteNextTask
  dsimp only
  split <;> rfl

theorem promoteNextTask_heap (e : Engine) : (promoteNextTask e).heap = e.heap := by
  unfold promoteNextTask
  dsimp only
  split <;> rfl

theorem promoteNextTask_history (e : Engine) : (promoteNextTask e).history = e.history := by
  unfold promoteNextTask
  dsimp only
  split <;> rfl

theorem promoteNextTask_focus (e : Engine) :
    (promoteNextTask e).currentFocus = (promoteNextTask e).tasks.head? := by
  unfold promoteNextTask
  dsimp only
  split
  · simp [List.head?_eq_getElem?]
  · rename_i hlen
    have : e.tasks.insertionSort (sortsBefore e.heap) = [] := by
      apply List.eq_nil_of_length_eq_zero
      omega
    simp [this]

theorem promoteNextTask_focus_mem (e : Engine) (f : Ref)
    (hf : (promoteNextTask e).currentFocus = some f) : f ∈ (promoteNextTask e).tasks := by
  rw [promoteNextTask_focus] at hf
  exact List.mem_of_mem_head? hf

theorem addTask_unfold (h : Host) (e : Engine) (text taskInput : JSString)
    (clk : ClockReads) (hne : trim text ≠ []) :
    addTask h e (some text) taskInput clk =
      { e with
        heap := Function.update e.heap e.nextRef (parseInput h text clk)
        nextRef := e.nextRef + 1
        tasks := e.tasks ++ [e.nextRef]
        currentFocus :=
          match e.currentFocus with
          | none => some e.nextRef
          | some f =>
            if (parseInput h text clk).priority >
                (Function.update e.heap e.nextRef (parseInput h text clk) f).priority then
              some e.nextRef
            else some f } := by
  have htext : text ≠ [] := by
    intro h0
    apply hne
    rw [h0]
    rfl
  have hemp : text.isEmpty = false := by
    cases text with
    | nil => exact absurd rfl htext
    | cons c cs => rfl
  have htrim : (trim text).isEmpty = false := by
    cases ht : trim text with
    | nil => exact absurd ht hne
    | cons c cs => rfl
  unfold addTask
  simp only [hemp, Bool.false_eq_true, if_false, htrim, Function.update_same]
  cases hcf : e.currentFocus with
  | none => rfl
  | some f =>
    dsimp only
    split <;> rfl

theorem addTask_heap (h : Host) (e : Engine) (text taskInput : JSString)
    (clk : ClockReads) (hne : trim text ≠ []) :
    (addTask h e (some text) taskInput clk).heap =
      Function.update e.heap e.nextRef (parseInput h text clk) := by
  rw [addTask_unfold h e text taskInput clk hne]

theorem addTask_tasks (h : Host) (e : Engine) (text taskInput : JSString)
    (clk : ClockReads) (hne : trim text ≠ []) :
    (addTask h e (some text) taskInput clk).tasks = e.tasks ++ [e.nextRef] := by
  rw [addTask_unfold h e text taskInput clk hne]

theorem addTask_focus (h : Host) (e : Engine) (text taskInput : JSString)
    (clk : ClockReads) (hne : trim text ≠ []) :
    (addTask h e (some text) taskInput clk).currentFocus =
      match e.currentFocus with
      | none => some e.nextRef
      | some f =>
        if (parseInput h text clk).priority >
            (Function.update e.heap e.nextRef (parseInput h text clk) f).priority then
          some e.nextRef
        else some f := by
  rw [addTask_unfold h e text taskInput clk hne]

theorem compareTasks_nonpos (a b : Task) :
    compareTasks a b ≤ 0 ↔
      b.priority < a.priority ∨ (a.priority = b.priority ∧ b.id ≤ a.id) := by
  unfold compareTasks
  split <;> omega

instance sortsBefore_total (heap : Ref → Task) : IsTotal Ref (sortsBefore heap) :=
  ⟨fun a b => by
    unfold sortsBefore
    rw [compareTasks_nonpos, compareTasks_nonpos]
    omega⟩

instance sortsBefore_trans (heap : Ref → Task) : IsTrans Ref (sortsBefore heap) :=
  ⟨fun a b c => by
    unfold sortsBefore
    rw [compareTasks_nonpos, compareTasks_nonpos, compareTasks_nonpos]
    omega⟩

theorem parseInput_id (h : Host) (text : JSString) (clk : ClockReads) :
    (parseInput h text clk).id = clk.idNow := by
  unfold parseInput
  dsimp only
  split <;> split <;> (try split) <;> rfl

theorem setDate_next_day (h : Host) (tv : Int) :
    setDate h tv (getDate h tv + 1) = instantOf h (localValue h tv + 86400000) := by
  have harg : MakeDate (MakeDay h (LocalTime h tv) (getDate h tv + 1))
      (TimeWithinDay (LocalTime h tv)) = localValue h tv + 86400000 := by
    unfold MakeDate MakeDay getDate DateFromTime TimeWithinDay Day msPerDay localValue
    unfold LocalTime
    generalize h.monthStartDay _ = m
    generalize tv + h.localTZA tv true = t
    omega
  unfold setDate
  dsimp only
  rw [harg]
  rfl

theorem setHours_instant (h : Host) (tv hour : Int) :
    setHours h tv hour 0 0 0 = instantOf h (localDay h tv * 86400000 + hour * 3600000) := by
  have harg : MakeDate (Day (LocalTime h tv)) (MakeTime hour 0 0 0) =
      localDay h tv * 86400000 + hour * 3600000 := by
    unfold MakeDate MakeTime Day msPerDay localDay LocalTime
    omega
  unfold setHours
  dsimp only
  rw [harg]
  rfl

theorem local_of_existsLocally (h : Host) (x : Int) (he : ExistsLocally h x) :
    localDay h (instantOf h x) = x / 86400000 ∧ localClock h (instantOf h x) = x % 86400000 := by
  unfold ExistsLocally localValue at he
  unfold localDay localClock
  rw [he]
  exact ⟨rfl, rfl⟩

theorem due_tomorrow_spec (h : Host) (now : Int)
    (hk : KeepsDay h (localValue h now + 86400000))
    (he : ExistsLocally h ((localDay h now + 1) * 86400000 + 9 * 3600000)) :
    localDay h (setHours h (setDate h now (getDate h now + 1)) 9 0 0 0) = localDay h now + 1 ∧
    localClock h (setHours h (setDate h now (getDate h now + 1)) 9 0 0 0) = 9 * 3600000 := by
  have hday : localDay h (instantOf h (localValue h now + 86400000)) = localDay h now + 1 := by
    rw [hk]
    unfold localDay localValue
    omega
  rw [setHours_instant, setDate_next_day, hday]
  obtain ⟨hd, hc⟩ := local_of_existsLocally h _ he
  rw [hd, hc]
  generalize localDay h now = D
  omega

theorem due_today_spec (h : Host) (now : Int)
    (he : ExistsLocally h (localDay h now * 86400000 + 20 * 3600000)) :
    localDay h (setHours h now 20 0 0 0) = localDay h now ∧
    localClock h (setHours h now 20 0 0 0) = 20 * 3600000 := by
  rw [setHours_instant]
  obtain ⟨hd, hc⟩ := local_of_existsLocally h _ he
  rw [hd, hc]
  generalize localDay h now = D
  omega

theorem latinHost_regular (x d : Int) :
    KeepsDay latinHost x ∧ ExistsLocally latinHost (d * 86400000 + 9 * 3600000) ∧
    ExistsLocally latinHost (d * 86400000 + 20 * 3600000) := by
  unfold KeepsDay ExistsLocally localDay localValue instantOf latinHost madridTZA
  simp only [if_true, Bool.false_eq_true, if_false]
  refine ⟨?_, ?_, ?_⟩
  · split <;> split <;> omega
  · split <;> split <;> omega
  · split <;> split <;> omega

theorem latinHost_due (now : Int) :
    (localDay latinHost (setHours latinHost (setDate latinHost now (getDate latinHost now + 1))
        9 0 0 0) = localDay latinHost now + 1 ∧
      localClock latinHost (setHours latinHost (setDate latinHost now
        (getDate latinHost now + 1)) 9 0 0 0) = 9 * 3600000) ∧
    (localDay latinHost (setHours latinHost now 20 0 0 0) = localDay latinHost now ∧
      localClock latinHost (setHours latinHost now 20 0 0 0) = 20 * 3600000) :=
  ⟨due_tomorrow_spec latinHost now (latinHost_regular _ 0).1 (latinHost_regular 0 _).2.1,
   due_today_spec latinHost now (latinHost_regular 0 _).2.2⟩

theorem parseInput_due_eq (h : Host) (text : JSString) (clk : ClockReads) :
    (parseInput h text clk).due =
      if includes (h.toLowerCase text) kwTomorrow then
        some (setHours h (setDate h clk.dueNow (getDate h clk.dueNow + 1)) 9 0 0 0)
      else if includes (h.toLowerCase text) kwToday then
        some (setHours h clk.dueNow 20 0 0 0)
      else none := by
  unfold parseInput
  dsimp only
  split <;> split <;> (try split) <;> rfl

theorem parseInput_priority_eq (h : Host) (text : JSString) (clk : ClockReads) :
    (parseInput h text clk).priority =
      if includes (h.toLowerCase text) "urgente".toList ||
          includes (h.toLowerCase text) "ahora".toList ||
          includes (h.toLowerCase text) "ya".toList then 3
      else 1 := by
  unfold parseInput
  dsimp only
  split <;> split <;> (try split) <;> rfl

theorem parseInput_title_eq (h : Host) (text : JSString) (clk : ClockReads) :
    (parseInput h text clk).title =
      if includes (h.toLowerCase text) "urgente".toList ||
          includes (h.toLowerCase text) "ahora".toList ||
          includes (h.toLowerCase text) "ya".toList then trim (replaceUrgency text)
      else text := by
  unfold parseInput
  dsimp only
  split <;> split <;> (try split) <;> rfl

theorem toNat_ofNat_small (n : Nat) (hn : n < 55296) : (Char.ofNat n).toNat = n := by
  unfold Char.ofNat
  have hv : n.isValidChar := Or.inl hn
  rw [dif_pos hv]
  simp [Char.ofNatAux, Char.toNat, UInt32.toNat]

theorem char_eq_iff_toNat (a b : Char) : a = b ↔ a.toNat = b.toNat := by
  constructor
  · intro h
    rw [h]
  · intro h
    rw [← Char.ofNat_toNat a, ← Char.ofNat_toNat b, h]

theorem canonicalize_eq_iff (p c : Char) (hp : 97 ≤ p.toNat ∧ p.toNat ≤ 122) :
    canonicalize p = canonicalize c ↔ SameLetter p c := by
  unfold SameLetter canonicalize
  rw [char_eq_iff_toNat, char_eq_iff_toNat c p]
  unfold Char.toUpper
  simp only [ge_iff_le]
  rw [if_pos hp, toNat_ofNat_small _ (by omega)]
  split
  · rw [toNat_ofNat_small _ (by omega)]
    omega
  · omega

theorem urgencyAlternatives_lower :
    ∀ p ∈ urgencyAlternatives, ∀ x ∈ p, 97 ≤ x.toNat ∧ x.toNat ≤ 122 := by
  decide

theorem matchLiteral_eq_some (p s rest : JSString)
    (hp : ∀ x ∈ p, 97 ≤ x.toNat ∧ x.toNat ≤ 122) :
    matchLiteral p s = some rest ↔ ∃ m, s = m ++ rest ∧ List.Forall₂ SameLetter p m := by
  induction p generalizing s with
  | nil =>
    unfold matchLiteral
    constructor
    · intro hs
      exact ⟨[], by simpa using (Option.some.inj hs), List.Forall₂.nil⟩
    · rintro ⟨m, hm, hall⟩
      cases hall
      simp [hm]
  | cons a ps ih =>
    have hps : ∀ x ∈ ps, 97 ≤ x.toNat ∧ x.toNat ≤ 122 :=
      fun x hx => hp x (List.mem_cons_of_mem _ hx)
    have ha := hp a (List.mem_cons_self _ _)
    cases s with
    | nil =>
      unfold matchLiteral
      constructor
      · intro hs
        cases hs
      · rintro ⟨m, hm, hall⟩
        cases hall
        cases hm
    | cons c cs =>
      unfold matchLiteral
      constructor
      · intro hs
        split at hs
        · rename_i hc
          obtain ⟨m, hm, hall⟩ := (ih cs hps).1 hs
          exact ⟨c :: m, by rw [hm]; rfl,
            List.Forall₂.cons ((canonicalize_eq_iff a c ha).1 hc) hall⟩
        · cases hs
      · rintro ⟨m, hm, hall⟩
        cases hall with
        | cons hx hxs =>
          rename_i x xs
          simp only [List.cons_append, List.cons.injEq] at hm
          obtain ⟨hcx, hrest⟩ := hm
          subst hcx
          rw [if_pos ((canonicalize_eq_iff a c ha).2 hx)]
          exact (ih cs hps).2 ⟨xs, hrest, hxs⟩

theorem matchAlternatives_eq_some (alts : List JSString) (s : JSString) (n : Nat)
    (halts : ∀ p ∈ alts, ∀ x ∈ p, 97 ≤ x.toNat ∧ x.toNat ≤ 122)
    (hn : matchAlternatives alts s = some n) :
    ∃ p ∈ alts, ∃ m rest, s = m ++ rest ∧ List.Forall₂ SameLetter p m ∧ m.length = n := by
  induction alts with
  | nil => cases hn
  | cons p ps ih =>
    unfold matchAlternatives at hn
    split at hn
    · rename_i rest hrest
      obtain ⟨m, hm, hall⟩ :=
        (matchLiteral_eq_some p s rest (halts p (List.mem_cons_self _ _))).1 hrest
      refine ⟨p, List.mem_cons_self _ _, m, rest, hm, hall, ?_⟩
      rw [← hall.length_eq]
      exact Option.some.inj hn
    · obtain ⟨q, hq, hrest⟩ := ih (fun q hq => halts q (List.mem_cons_of_mem _ hq)) hn
      exact ⟨q, List.mem_cons_of_mem _ hq, hrest⟩

theorem matchAlternatives_eq_none (alts : List JSString) (s : JSString)
    (halts : ∀ p ∈ alts, ∀ x ∈ p, 97 ≤ x.toNat ∧ x.toNat ≤ 122)
    (hn : matchAlternatives alts s = none) :
    ∀ p ∈ alts, ∀ m rest, s = m ++ rest → ¬ List.Forall₂ SameLetter p m := by
  induction alts with
  | nil =>
    intro p hp
    cases hp
  | cons q qs ih =>
    unfold matchAlternatives at hn
    split at hn
    · cases hn
    · rename_i hq
      intro p hp m rest hs hall
      rcases List.mem_cons.1 hp with rfl | hp2
      · have := (matchLiteral_eq_some p s rest (halts p (List.mem_cons_self _ _))).2
          ⟨m, hs, hall⟩
        rw [hq] at this
        cases this
      · exact ih (fun q hq => halts q (List.mem_cons_of_mem _ hq)) hn p hp2 m rest hs hall

theorem replaceGlobal_skip (alts : List JSString) (k : Nat) (s : JSString) :
    replaceGlobal alts k s = replaceGlobal alts 0 (s.drop k) := by
  induction s generalizing k with
  | nil => cases k <;> simp [replaceGlobal]
  | cons c cs ih =>
    cases k with
    | zero => rfl
    | succ j =>
      rw [replaceGlobal, List.drop_succ_cons]
      exact ih j

theorem isToken_ne_nil (m : JSString) (hm : IsToken m) : m ≠ [] := by
  obtain ⟨p, hp, hall⟩ := hm
  intro h0
  subst h0
  simp only [List.mem_cons, List.mem_singleton, List.not_mem_nil, or_false] at hp
  rcases hp with h | h | h <;> subst h <;> cases hall

theorem stripsTo_replaceUrgency (s : JSString) : StripsTo s (replaceUrgency s) := by
  unfold replaceUrgency
  generalize hlen : s.length = n
  induction n using Nat.strong_induction_on generalizing s with
  | _ n ih =>
    cases s with
    | nil => exact StripsTo.done
    | cons c cs =>
      rw [replaceGlobal]
      cases hm : matchAlternatives urgencyAlternatives (c :: cs) with
      | none =>
        dsimp only
        refine StripsTo.keep c cs _ ?_ (ih cs.length (by rw [← hlen]; simp) cs rfl)
        rintro ⟨m, rest, ⟨p, hp, hall⟩, hs⟩
        exact matchAlternatives_eq_none _ _ urgencyAlternatives_lower hm p hp m rest hs hall
      | some k =>
        dsimp only
        obtain ⟨p, hp, m, rest, hs, hall, hk⟩ :=
          matchAlternatives_eq_some _ _ _ urgencyAlternatives_lower hm
        have htok : IsToken m := ⟨p, hp, hall⟩
        have hpos : 0 < k := by
          have := List.length_pos.2 (isToken_ne_nil m htok)
          omega
        have hdrop : cs.drop (k - 1) = rest := by
          have h1 : (c :: cs).drop k = rest := by
            rw [hs, ← hk]
            simp
          obtain ⟨j, rfl⟩ : ∃ j, k = j + 1 := ⟨k - 1, by omega⟩
          simpa using h1
        rw [replaceGlobal_skip, hdrop, hs]
        refine StripsTo.drop m rest _ htok (ih rest.length ?_ rest rfl)
        have hl := congrArg List.length hs
        simp only [List.length_cons, List.length_append] at hl
        simp only [List.length_cons] at hlen
        omega

theorem isToken_unique (m₁ m₂ r₁ r₂ : JSString) (h₁ : IsToken m₁) (h₂ : IsToken m₂)
    (hs : m₁ ++ r₁ = m₂ ++ r₂) : m₁ = m₂ ∧ r₁ = r₂ := by
  obtain ⟨p₁, hp₁, hall₁⟩ := h₁
  obtain ⟨p₂, hp₂, hall₂⟩ := h₂
  apply List.append_inj hs
  rw [← hall₁.length_eq, ← hall₂.length_eq]
  have eu : ('u' : Char).toNat = 117 := rfl
  have ea : ('a' : Char).toNat = 97 := rfl
  have ey : ('y' : Char).toNat = 121 := rfl
  have hfirst : ∀ (x y a : Char), SameLetter x a → SameLetter y a →
      (x.toNat = y.toNat ∨ x.toNat = y.toNat + 32 ∨ y.toNat = x.toNat + 32) := by
    intro x y a hx hy
    unfold SameLetter at hx hy
    rw [char_eq_iff_toNat] at hx hy
    omega
  simp only [List.mem_cons, List.mem_singleton, List.not_mem_nil, or_false] at hp₁ hp₂
  rcases hp₁ with h | h | h <;> rcases hp₂ with g | g | g <;> subst h <;> subst g <;>
    first
    | rfl
    | (exfalso
       cases hall₁ with
       | cons hx₁ _ =>
         cases hall₂ with
         | cons hx₂ _ =>
           simp only [List.cons_append, List.cons.injEq] at hs
           obtain ⟨hab, _⟩ := hs
           subst hab
           have := hfirst _ _ _ hx₁ hx₂
           simp only [eu, ea, ey] at this
           omega)

theorem stripsTo_unique (s o₁ o₂ : JSString) (h₁ : StripsTo s o₁) (h₂ : StripsTo s o₂) :
    o₁ = o₂ := by
  induction h₁ generalizing o₂ with
  | done =>
    generalize hs : ([] : JSString) = s at h₂
    cases h₂ with
    | done => rfl
    | drop m rest out hm hr =>
      have : m = [] := (List.append_eq_nil.1 hs.symm).1
      exact absurd this (isToken_ne_nil m hm)
    | keep c s out hno hr => cases hs
  | drop m rest out hm _ ih =>
    generalize hs : m ++ rest = s at h₂
    cases h₂ with
    | done =>
      have : m = [] := (List.append_eq_nil.1 hs).1
      exact absurd this (isToken_ne_nil m hm)
    | drop m₂ rest₂ out₂ hm₂ hr₂ =>
      obtain ⟨_, hrest⟩ := isToken_unique m m₂ rest rest₂ hm hm₂ hs
      subst hrest
      exact ih _ hr₂
    | keep c s out₂ hno hr₂ => exact absurd ⟨m, rest, hm, hs.symm⟩ hno
  | keep c s out hno _ ih =>
    generalize hs : c :: s = s₂ at h₂
    cases h₂ with
    | done => cases hs
    | drop m₂ rest₂ out₂ hm₂ hr₂ => exact absurd ⟨m₂, rest₂, hm₂, hs⟩ hno
    | keep c₂ s₂ out₂ _ hr₂ =>
      simp only [List.cons.injEq] at hs
      obtain ⟨hc, hs2⟩ := hs
      subst hc
      subst hs2
      rw [ih _ hr₂]

theorem stripsTo_iff (s out : JSString) : StripsTo s out ↔ out = replaceUrgency s :=
  ⟨fun hs => stripsTo_unique s _ _ hs (stripsTo_replaceUrgency s),
   fun hs => hs ▸ stripsTo_replaceUrgency s⟩

theorem isWhiteSpace_iff (c : Char) : isWhiteSpace c = true ↔ IsBlank c := by
  unfold isWhiteSpace IsBlank blankCodePoints
  generalize c.toNat = n
  simp only [Bool.or_eq_true, Bool.and_eq_true, beq_iff_eq, decide_eq_true_eq, List.mem_cons,
    List.mem_singleton, List.not_mem_nil, or_false]
  omega

theorem isWhiteSpace_eq_false (c : Char) (hc : ¬ IsBlank c) : isWhiteSpace c = false := by
  cases hw : isWhiteSpace c with
  | false => rfl
  | true => exact absurd ((isWhiteSpace_iff c).1 hw) hc

theorem dropWhile_append_of_all (q : Char → Bool) (a b : JSString)
    (ha : ∀ c ∈ a, q c = true) : (a ++ b).dropWhile q = b.dropWhile q := by
  induction a with
  | nil => rfl
  | cons x xs ih =>
    rw [List.cons_append, List.dropWhile_cons, if_pos (ha x (List.mem_cons_self _ _))]
    exact ih fun c hc => ha c (List.mem_cons_of_mem _ hc)

theorem dropWhile_eq_self (q : Char → Bool) (b : JSString)
    (hb : ∀ c, b.head? = some c → q c = false) : b.dropWhile q = b := by
  cases b with
  | nil => rfl
  | cons x xs =>
    rw [List.dropWhile_cons, hb x rfl]
    rfl

theorem head_dropWhile (q : Char → Bool) (l : JSString) (c : Char)
    (hc : (l.dropWhile q).head? = some c) : q c = false := by
  induction l with
  | nil => cases hc
  | cons x xs ih =>
    rw [List.dropWhile_cons] at hc
    split at hc
    · exact ih hc
    · rename_i hx
      have : x = c := by simpa using hc
      rw [← this]
      simpa using hx

theorem isTrimOf_unique (s t : JSString) (ht : IsTrimOf s t) : t = trim s := by
  obtain ⟨pre, post, hs, hpre, hpost, hhead, hlast⟩ := ht
  have wpre : ∀ c ∈ pre, isWhiteSpace c = true := fun c hc => (isWhiteSpace_iff c).2 (hpre c hc)
  have wpost : ∀ c ∈ post, isWhiteSpace c = true :=
    fun c hc => (isWhiteSpace_iff c).2 (hpost c hc)
  cases t with
  | nil =>
    symm
    apply trim_eq_nil_of_all_white
    intro c hc
    rw [hs] at hc
    simp only [List.append_nil, List.mem_append] at hc
    rcases hc with h | h
    · exact wpre c h
    · exact wpost c h
  | cons x xs =>
    have h1 : trimStart s = (x :: xs) ++ post := by
      unfold trimStart
      rw [hs, List.append_assoc, dropWhile_append_of_all _ _ _ wpre]
      exact dropWhile_eq_self _ _ (fun c hc => isWhiteSpace_eq_false c (hhead c (by simpa using hc)))
    unfold trim trimEnd
    rw [h1, List.reverse_append,
      dropWhile_append_of_all _ _ _ (fun c hc => wpost c (List.mem_reverse.1 hc)),
      dropWhile_eq_self _ _ (fun c hc => isWhiteSpace_eq_false c
        (hlast c (by rw [← List.head?_reverse]; exact hc))),
      List.reverse_reverse]

theorem isTrimOf_trim (s : JSString) : IsTrimOf s (trim s) := by
  refine ⟨s.takeWhile isWhiteSpace,
    ((trimStart s).reverse.takeWhile isWhiteSpace).reverse, ?_, ?_, ?_, ?_, ?_⟩
  · have h2 : trim s ++ ((trimStart s).reverse.takeWhile isWhiteSpace).reverse = trimStart s := by
      unfold trim trimEnd
      rw [← List.reverse_append, List.takeWhile_append_dropWhile, List.reverse_reverse]
    rw [List.append_assoc, h2]
    unfold trimStart
    rw [List.takeWhile_append_dropWhile]
  · intro c hc
    exact (isWhiteSpace_iff c).1 (List.mem_takeWhile_imp hc)
  · intro c hc
    exact (isWhiteSpace_iff c).1 (List.mem_takeWhile_imp (List.mem_reverse.1 hc))
  · intro c hc hb
    have h2 : trim s ++ ((trimStart s).reverse.takeWhile isWhiteSpace).reverse = trimStart s := by
      unfold trim trimEnd
      rw [← List.reverse_append, List.takeWhile_append_dropWhile, List.reverse_reverse]
    have h3 : (trimStart s).head? = some c := by
      rw [← h2]
      cases ht : trim s with
      | nil => rw [ht] at hc; cases hc
      | cons y ys =>
        rw [ht] at hc
        simpa using hc
    have := head_dropWhile isWhiteSpace s c h3
    rw [(isWhiteSpace_iff c).2 hb] at this
    cases this
  · intro c hc hb
    unfold trim trimEnd at hc
    rw [List.getLast?_reverse] at hc
    have := head_dropWhile isWhiteSpace _ c hc
    rw [(isWhiteSpace_iff c).2 hb] at this
    cases this

theorem isPrefixOf_iff_append (p s : JSString) :
    p.isPrefixOf s = true ↔ ∃ v, s = p ++ v := by
  induction p generalizing s with
  | nil => simp
  | cons a as ih =>
    cases s with
    | nil => simp
    | cons c cs =>
      simp only [List.isPrefixOf, Bool.and_eq_true, beq_iff_eq, ih, List.cons_append,
        List.cons.injEq]
      constructor
      · rintro ⟨rfl, v, rfl⟩
        exact ⟨v, rfl, rfl⟩
      · rintro ⟨v, rfl, rfl⟩
        exact ⟨rfl, v, rfl⟩

theorem includes_iff (s p : JSString) :
    includes s p = true ↔ Occurs p s := by
  unfold Occurs
  induction s with
  | nil =>
    unfold includes
    constructor
    · intro hp
      have : p = [] := by simpa using hp
      exact ⟨[], [], by simp [this]⟩
    · rintro ⟨u, v, huv⟩
      have : p = [] := by
        have := congrArg List.length huv
        simp only [List.length_nil, List.length_append] at this
        exact List.eq_nil_of_length_eq_zero (by omega)
      simp [this]
  | cons c cs ih =>
    unfold includes
    rw [Bool.or_eq_true, isPrefixOf_iff_append, ih]
    constructor
    · rintro (⟨v, hv⟩ | ⟨u, v, huv⟩)
      · exact ⟨[], v, by simpa using hv⟩
      · exact ⟨c :: u, v, by simp [huv]⟩
    · rintro ⟨u, v, huv⟩
      cases u with
      | nil => exact Or.inl ⟨v, by simpa using huv⟩
      | cons d ds =>
        simp only [List.cons_append, List.cons.injEq] at huv
        exact Or.inr ⟨ds, v, by simpa using huv.2⟩

theorem engineOf_WF (st : PersistedState) : (engineOf st).WF := by
  constructor
  · intro r hr
    simpa [engineOf] using hr
  · intro f hf
    cases hf

theorem promoteNextTask_WF (e : Engine) (hwf : e.WF) : (promoteNextTask e).WF := by
  have hn : (promoteNextTask e).nextRef = e.nextRef := by
    unfold promoteNextTask
    dsimp only
    split <;> rfl
  have hmem : ∀ r ∈ (promoteNextTask e).tasks, r < (promoteNextTask e).nextRef := by
    intro r hr
    rw [hn]
    rw [promoteNextTask_tasks, List.mem_insertionSort] at hr
    exact hwf.1 r hr
  exact ⟨hmem, fun f hf => hmem f (promoteNextTask_focus_mem e f hf)⟩

theorem setFocus_WF (e : Engine) (task : Ref) (hmem : task ∈ e.tasks) (hwf : e.WF) :
    (setFocus e task).WF := by
  constructor
  · exact hwf.1
  · intro f hf
    have : task = f := Option.some.inj hf
    subst this
    exact hwf.1 _ hmem

theorem completeCurrent_WF (e : Engine) (now : Int) (hwf : e.WF) :
    (completeCurrent e now).WF := by
  unfold completeCurrent
  split
  · exact hwf
  · apply promoteNextTask_WF
    constructor
    · intro r hr
      exact hwf.1 r (List.mem_filter.1 hr).1
    · exact hwf.2

theorem deferCurrent_WF (e : Engine) (hwf : e.WF) : (deferCurrent e).WF := by
  unfold deferCurrent
  split
  · exact hwf
  · rename_i f hf
    apply promoteNextTask_WF
    constructor
    · intro r hr
      rcases List.mem_append.1 hr with h | h
      · exact hwf.1 r (List.mem_filter.1 h).1
      · have : r = f := by simpa using h
        rw [this]
        exact hwf.2 f hf
    · exact hwf.2

theorem addTask_WF (h : Host) (e : Engine) (arg : Option JSString) (taskInput : JSString)
    (clk : ClockReads) (hwf : e.WF) : (addTask h e arg taskInput clk).WF := by
  have hlt : ∀ n m : Nat, n < m → n < m + 1 := fun n m hnm => Nat.lt_succ_of_lt hnm
  unfold addTask
  dsimp only
  split
  · exact hwf
  · have hmem : ∀ r ∈ e.tasks ++ [e.nextRef], r < e.nextRef + 1 := by
      intro r hr
      rcases List.mem_append.1 hr with h | h
      · exact hlt _ _ (hwf.1 r h)
      · have : r = e.nextRef := by simpa using h
        rw [this]
        exact Nat.lt_succ_self _
    cases hcf : e.currentFocus with
    | none =>
      refine ⟨hmem, ?_⟩
      intro f hf
      have : e.nextRef = f := Option.some.inj hf
      rw [← this]
      exact Nat.lt_succ_self _
    | some g =>
      dsimp only
      split
      · refine ⟨hmem, ?_⟩
        intro f hf
        have : e.nextRef = f := Option.some.inj hf
        rw [← this]
        exact Nat.lt_succ_self _
      · refine ⟨hmem, ?_⟩
        intro f hf
        have : g = f := Option.some.inj (hcf ▸ hf)
        rw [← this]
        exact hlt _ _ (hwf.2 g hcf)

theorem constructor_reachable (h : Host) (jsonParse : JSString → Parsed)
    (saved : Option JSString) (e : Engine) (he : constructor jsonParse saved = Except.ok e) :
    Reachable h e ∧ e.WF := by
  unfold constructor at he
  split at he
  · cases he
  · rename_i loaded _
    have : engineOf (loaded.getD defaultState) = e := Except.ok.inj he
    subst this
    exact ⟨Reachable.init _ rfl, engineOf_WF _⟩

/-! ## Claims -/

/-- C1. Focus-membership invariant: in every state reachable from a state with
nothing focused by `addTask`, `completeCurrent`, `deferCurrent`,
`promoteNextTask`, and `setFocus` called with a task of the pending list,
`currentFocus` is null or a member of the pending list. -/
theorem focus_mem_of_reachable (h : Host) (e : Engine) (hr : Reachable h e) :
    e.currentFocus = none ∨ ∃ f, e.currentFocus = some f ∧ f ∈ e.tasks := by
  induction hr with
  | init e h0 => exact Or.inl h0
  | addTask e arg taskInput clk _ ih =>
    unfold Zenith.addTask
    dsimp only
    split
    · exact ih
    · right
      cases hcf : e.currentFocus with
      | none => exact ⟨e.nextRef, by simp⟩
      | some f =>
        have hmem : f ∈ e.tasks := by
          rcases ih with h0 | ⟨g, hg, hgm⟩
          · rw [hcf] at h0; cases h0
          · rw [hcf] at hg; cases hg; exact hgm
        dsimp only
        split
        · exact ⟨e.nextRef, by simp⟩
        · exact ⟨f, by simp [hcf], by simp [hmem]⟩
  | setFocus e task hmem _ _ => exact Or.inr ⟨task, rfl, hmem⟩
  | completeCurrent e now _ ih =>
    unfold Zenith.completeCurrent
    split
    · exact ih
    · rename_i f hcf
      dsimp only
      generalize hp : promoteNextTask _ = e2
      cases hf2 : e2.currentFocus with
      | none => exact Or.inl rfl
      | some g => exact Or.inr ⟨g, rfl, by rw [← hp] at hf2 ⊢; exact promoteNextTask_focus_mem _ g hf2⟩
  | deferCurrent e _ ih =>
    unfold Zenith.deferCurrent
    split
    · exact ih
    · dsimp only
      generalize hp : promoteNextTask _ = e2
      cases hf2 : e2.currentFocus with
      | none => exact Or.inl rfl
      | some g => exact Or.inr ⟨g, rfl, by rw [← hp] at hf2 ⊢; exact promoteNextTask_focus_mem _ g hf2⟩
  | promoteNextTask e _ _ =>
    cases hf2 : (promoteNextTask e).currentFocus with
    | none => exact Or.inl rfl
    | some g => exact Or.inr ⟨g, rfl, promoteNextTask_focus_mem _ g hf2⟩

theorem focus_mem_of_reachable_witness :
    Reachable latinHost engine3 ∧
      (engine3.currentFocus = none ∨ ∃ f, engine3.currentFocus = some f ∧ f ∈ engine3.tasks) :=
  have hr : Reachable latinHost engine3 :=
    Reachable.addTask _ _ _ _ (Reachable.addTask _ _ _ _ (Reachable.addTask _ _ _ _
      (Reachable.init engine0 rfl)))
  ⟨hr, focus_mem_of_reachable latinHost engine3 hr⟩

/-- C2. `addTask` with a text that is not blank appends exactly the parsed task
at the end of the pending list; the focus becomes the new task if nothing was
focused or the new priority is strictly greater than the focused one, and stays
the same task, unmodified, otherwise; in particular a task of priority 1 or 2
added while a task of priority 3 is focused does not change the focus. -/
theorem addTask_usurpation (h : Host) (e : Engine) (text taskInput : JSString)
    (clk : ClockReads) (hne : trim text ≠ []) (hwf : e.WF) :
    (addTask h e (some text) taskInput clk).tasks = e.tasks ++ [e.nextRef] ∧
    (addTask h e (some text) taskInput clk).pending = e.pending ++ [parseInput h text clk] ∧
    (e.currentFocus = none →
      (addTask h e (some text) taskInput clk).currentFocus = some e.nextRef) ∧
    (∀ f, e.currentFocus = some f →
      ((parseInput h text clk).priority > (e.heap f).priority →
        (addTask h e (some text) taskInput clk).currentFocus = some e.nextRef) ∧
      (¬ (parseInput h text clk).priority > (e.heap f).priority →
        (addTask h e (some text) taskInput clk).currentFocus = some f ∧
        (addTask h e (some text) taskInput clk).heap f = e.heap f)) ∧
    (∀ f, e.currentFocus = some f → (e.heap f).priority = 3 →
      (parseInput h text clk).priority = 1 ∨ (parseInput h text clk).priority = 2 →
        (addTask h e (some text) taskInput clk).currentFocus = some f ∧
        (addTask h e (some text) taskInput clk).heap f = e.heap f) := by
  have hheap := addTask_heap h e text taskInput clk hne
  have htasks := addTask_tasks h e text taskInput clk hne
  have hfocus : ∀ f, e.currentFocus = some f →
      (addTask h e (some text) taskInput clk).currentFocus =
        if (parseInput h text clk).priority > (e.heap f).priority then some e.nextRef
        else some f := by
    intro f hf
    have hlt : f ≠ e.nextRef := Nat.ne_of_lt (hwf.2 f hf)
    rw [addTask_focus h e text taskInput clk hne, hf]
    simp only [Function.update_noteq hlt]
  have hold : ∀ f, e.currentFocus = some f →
      (addTask h e (some text) taskInput clk).heap f = e.heap f := by
    intro f hf
    rw [hheap, Function.update_noteq (Nat.ne_of_lt (hwf.2 f hf))]
  refine ⟨htasks, ?_, ?_, ?_, ?_⟩
  · unfold Engine.pending
    rw [htasks, hheap, List.map_append]
    congr 1
    · apply List.map_congr_left
      intro r hr
      rw [Function.update_noteq (Nat.ne_of_lt (hwf.1 r hr))]
    · simp
  · intro h0
    rw [addTask_focus h e text taskInput clk hne, h0]
  · intro f hf
    constructor
    · intro hgt
      rw [hfocus f hf, if_pos hgt]
    · intro hngt
      exact ⟨by rw [hfocus f hf, if_neg hngt], hold f hf⟩
  · intro f hf h3 h12
    refine ⟨?_, hold f hf⟩
    rw [hfocus f hf, if_neg]
    rw [h3]
    omega

theorem addTask_usurpation_witness :
    engine3.tasks = engine2.tasks ++ [engine2.nextRef] ∧
      engine3.currentFocus = some 1 :=
  have hwf : engine2.WF := by
    have ht : engine2.tasks = [0, 1] := by decide
    have hn : engine2.nextRef = 2 := by decide
    have hf : engine2.currentFocus = some 1 := by decide
    unfold Engine.WF
    rw [ht, hn, hf]
    simp
  have hall := addTask_usurpation latinHost engine2 "correr".toList []
    ⟨1762297200003, 1762297200003, 1762297200003⟩ (by decide) hwf
  ⟨hall.1, (hall.2.2.2.2 1 (by decide) (by decide) (by decide)).1⟩

/-- C3. `completeCurrent` with a focused task `f`: the history becomes the
snapshot of `f` with status completed and `completedAt = now`, followed by the
previous history, and no task of the pending list has the id of `f`; with
nothing focused the engine is left as it was. -/
theorem completeCurrent_post (e : Engine) (now : Int) :
    (∀ f, e.currentFocus = some f →
      (completeCurrent e now).history =
        { id := (e.heap f).id, title := (e.heap f).title, createdAt := (e.heap f).createdAt,
          due := (e.heap f).due, priority := (e.heap f).priority,
          status := Status.completed, completedAt := now } :: e.history ∧
      ∀ t ∈ (completeCurrent e now).pending, t.id ≠ (e.heap f).id) ∧
    (e.currentFocus = none → completeCurrent e now = e) := by
  constructor
  · intro f hf
    unfold completeCurrent
    simp only [hf]
    constructor
    · rw [promoteNextTask_history]
    · intro t ht
      unfold Engine.pending at ht
      rw [promoteNextTask_heap, promoteNextTask_tasks] at ht
      obtain ⟨r, hr, rfl⟩ := List.mem_map.1 ht
      rw [List.mem_insertionSort] at hr
      simpa using (List.mem_filter.1 hr).2
  · intro h0
    unfold completeCurrent
    simp only [h0]

theorem completeCurrent_post_witness :
    (completeCurrent engine3 1762297200900).history =
      [{ id := 1762297200002, title := "pagar".toList, createdAt := 1762297200002,
         due := none, priority := 3, status := Status.completed,
         completedAt := 1762297200900 }] ∧
    (∀ t ∈ (completeCurrent engine3 1762297200900).pending, t.id ≠ 1762297200002) ∧
    completeCurrent engine0 1762297200900 = engine0 :=
  have hc := completeCurrent_post engine3 1762297200900
  have h0 := completeCurrent_post engine0 1762297200900
  ⟨(hc.1 1 (by decide)).1, (hc.1 1 (by decide)).2, h0.2 (by decide)⟩

/-- C7, the claim as stated fails: called with the empty string, `addTask`
reads the text of the input element instead, and adds a task when that text is
not blank. -/
theorem addTask_empty_string_reads_input :
    (addTask latinHost engine0 (some []) "leer".toList
        ⟨1762297200001, 1762297200001, 1762297200001⟩).tasks = [0] ∧
    engine0.tasks = [] ∧
    (addTask latinHost engine0 (some []) "leer".toList
        ⟨1762297200001, 1762297200001, 1762297200001⟩).currentFocus = some 0 ∧
    engine0.currentFocus = none := by
  decide

/-- C7, amended. `addTask` called with a string of white space only, the text
of the input element being blank too in case the string is empty, leaves the
engine as it was: pending list and focus are unchanged. -/
theorem addTask_blank (h : Host) (e : Engine) (text taskInput : JSString) (clk : ClockReads)
    (hws : ∀ c ∈ text, isWhiteSpace c = true)
    (hin : text = [] → ∀ c ∈ taskInput, isWhiteSpace c = true) :
    addTask h e (some text) taskInput clk = e := by
  unfold addTask
  cases text with
  | nil =>
    simp only [List.isEmpty_nil, if_true]
    rw [trim_eq_nil_of_all_white taskInput (hin rfl)]
    rfl
  | cons c cs =>
    simp only [List.isEmpty_cons, Bool.false_eq_true, if_false]
    rw [trim_eq_nil_of_all_white (c :: cs) hws]
    rfl

theorem addTask_blank_witness :
    addTask latinHost engine3 (some "   ".toList) "leer".toList
        ⟨1762297200004, 1762297200004, 1762297200004⟩ = engine3 ∧
    addTask latinHost engine3 (some []) " \t".toList
        ⟨1762297200004, 1762297200004, 1762297200004⟩ = engine3 :=
  ⟨addTask_blank latinHost engine3 "   ".toList "leer".toList _ (by decide)
      (fun hnil => absurd hnil (by decide)),
   addTask_blank latinHost engine3 [] " \t".toList _ (by decide) (fun _ => by decide)⟩

/-- C5. After `promoteNextTask` the pending list is a permutation of what it
was, in order of decreasing priority and, among equal priorities, decreasing
id; the focus is its first element, or null if it is empty.  Hence, for tasks
A, B, C of priorities 1, 3, 1 and increasing ids added in this order to an
engine with no pending task, B is focused after the three calls and C after
one `completeCurrent`. -/
theorem promoteNextTask_order (e : Engine) :
    (promoteNextTask e).tasks.Perm e.tasks ∧
    (promoteNextTask e).heap = e.heap ∧
    (promoteNextTask e).pending.Pairwise
      (fun a b => b.priority < a.priority ∨ (a.priority = b.priority ∧ b.id ≤ a.id)) ∧
    (promoteNextTask e).currentFocus = (promoteNextTask e).tasks.head? ∧
    (∀ (h : Host) (tA tB tC iA iB iC : JSString) (cA cB cC : ClockReads) (now : Int),
      e.tasks = [] → e.currentFocus = none →
      trim tA ≠ [] → trim tB ≠ [] → trim tC ≠ [] →
      (parseInput h tA cA).priority = 1 → (parseInput h tB cB).priority = 3 →
      (parseInput h tC cC).priority = 1 →
      cA.idNow < cB.idNow → cB.idNow < cC.idNow →
      (addTask h (addTask h (addTask h e (some tA) iA cA) (some tB) iB cB)
          (some tC) iC cC).focus = some (parseInput h tB cB) ∧
      (completeCurrent (addTask h (addTask h (addTask h e (some tA) iA cA) (some tB) iB cB)
          (some tC) iC cC) now).focus = some (parseInput h tC cC)) := by
  refine ⟨?_, promoteNextTask_heap e, ?_, promoteNextTask_focus e, ?_⟩
  · rw [promoteNextTask_tasks]
    exact List.perm_insertionSort _ _
  · unfold Engine.pending
    rw [promoteNextTask_heap, promoteNextTask_tasks, List.pairwise_map]
    have hs := List.sorted_insertionSort (sortsBefore e.heap) e.tasks
    refine List.Pairwise.imp ?_ hs
    intro a b hab
    exact (compareTasks_nonpos _ _).1 hab
  · intro h tA tB tC iA iB iC cA cB cC now ht hf hA hB hC pA pB pC hAB hBC
    have idA := parseInput_id h tA cA
    have idB := parseInput_id h tB cB
    have idC := parseInput_id h tC cC
    rw [addTask_unfold h _ tC iC cC hC, addTask_unfold h _ tB iB cB hB,
      addTask_unfold h e tA iA cA hA]
    have key : ∀ n : Nat, n ≠ n + 1 ∧ n ≠ n + 1 + 1 ∧ n + 1 ≠ n + 1 + 1 ∧
        n + 1 ≠ n ∧ n + 1 + 1 ≠ n ∧ n + 1 + 1 ≠ n + 1 := by
      intro n
      omega
    obtain ⟨n01, n02, n12, n10, n20, n21⟩ := key e.nextRef
    have i1 : ¬ cA.idNow = cB.idNow := by omega
    have i2 : ¬ cC.idNow = cB.idNow := by omega
    have i3 : ¬ cC.idNow ≤ cA.idNow := by omega
    constructor
    · simp [Engine.focus, ht, hf, pA, pB, pC, Function.update_noteq n01,
        Function.update_noteq n02, Function.update_noteq n12, Function.update_noteq n10,
        Function.update_noteq n20, Function.update_noteq n21]
    · simp [Engine.focus, completeCurrent, promoteNextTask, sortsBefore, compareTasks_nonpos,
        ht, hf, Function.update_noteq n01, Function.update_noteq n02, Function.update_noteq n12,
        Function.update_noteq n10, Function.update_noteq n20, Function.update_noteq n21,
        idA, idB, idC, pA, pB, pC, i1, i2, i3]

theorem promoteNextTask_order_witness :
    engine3.focus = some (parseInput latinHost "urgente pagar".toList
      ⟨1762297200002, 1762297200002, 1762297200002⟩) ∧
    (completeCurrent engine3 1762297200900).focus = some (parseInput latinHost "correr".toList
      ⟨1762297200003, 1762297200003, 1762297200003⟩) :=
  (promoteNextTask_order engine0).2.2.2.2 latinHost "leer".toList "urgente pagar".toList
    "correr".toList [] [] [] _ _ _ 1762297200900 (by decide) (by decide) (by decide) (by decide)
    (by decide) (by decide) (by decide) (by decide) (by decide) (by decide)

/-- C10. `promoteNextTask` is idempotent: called a second time it changes
nothing, so the focus and the order of the pending list are those left by the
first call, also when pending tasks share priority and id. -/
theorem promoteNextTask_idempotent (e : Engine) :
    promoteNextTask (promoteNextTask e) = promoteNextTask e := by
  have hs : (promoteNextTask (promoteNextTask e)).tasks = (promoteNextTask e).tasks := by
    rw [promoteNextTask_tasks (promoteNextTask e), promoteNextTask_heap, promoteNextTask_tasks]
    exact List.Sorted.insertionSort_eq (List.sorted_insertionSort _ _)
  have hf : (promoteNextTask (promoteNextTask e)).currentFocus =
      (promoteNextTask e).currentFocus := by
    rw [promoteNextTask_focus, promoteNextTask_focus e, hs]
  have hrest : ∀ x : Engine, (promoteNextTask x).nextRef = x.nextRef ∧
      (promoteNextTask x).user = x.user ∧ (promoteNextTask x).settings = x.settings := by
    intro x
    unfold promoteNextTask
    dsimp only
    split <;> exact ⟨rfl, rfl, rfl⟩
  have hh := promoteNextTask_heap (promoteNextTask e)
  have hy := promoteNextTask_history (promoteNextTask e)
  obtain ⟨hn, hu, hst⟩ := hrest (promoteNextTask e)
  generalize promoteNextTask (promoteNextTask e) = x at *
  generalize promoteNextTask e = y at *
  cases x
  cases y
  simp only at hs hf hh hy hn hu hst
  subst hs hf hh hy hn hu hst
  rfl

/-- C4, at a state the code reaches: after adding "leer" and then
"urgente pagar", the urgent task is focused; `deferCurrent` sets its priority
to 1 and moves it to the end, but the sort of `promoteNextTask` that follows
puts it back in front of the older task: it is first in the pending list, not
last, and is focused again. -/
theorem deferCurrent_returns_to_front :
    engine2.tasks = [0, 1] ∧ engine2.currentFocus = some 1 ∧
    (deferCurrent engine2).tasks = [1, 0] ∧
    (deferCurrent engine2).tasks.getLast? = some 0 ∧
    (deferCurrent engine2).currentFocus = some 1 ∧
    ((deferCurrent engine2).heap 1).priority = 1 ∧
    ((deferCurrent engine2).heap 1).title = "pagar".toList := by
  decide

/-- C8, the claim as stated fails: it is not so that a stored text on which
`JSON.parse` throws makes the constructor return an engine; with the text
consisting of an opening brace alone the error leaves the constructor. -/
theorem constructor_malformed_not_default :
    ¬ ∀ (jsonParse : JSString → Parsed) (blob m : JSString),
      jsonParse blob = Parsed.syntaxError m →
      ∃ e, constructor jsonParse (some blob) = Except.ok e ∧ e.tasks = [] ∧
        e.history = [] ∧ e.settings = defaultState.settings ∧ e.currentFocus = none := by
  intro hall
  obtain ⟨e, he, _⟩ := hall (fun _ => Parsed.syntaxError "Unexpected end of JSON input".toList)
    "\x7b".toList "Unexpected end of JSON input".toList rfl
  have hc : constructor (fun _ => Parsed.syntaxError "Unexpected end of JSON input".toList)
      (some "\x7b".toList) = Except.error "Unexpected end of JSON input".toList := rfl
  rw [hc] at he
  cases he

/-- C8, amended. When `JSON.parse` throws on the stored text, the constructor
throws the same error and no engine is made; when nothing is stored the engine
has the default state: no pending task, empty history, default settings, no
focus. -/
theorem constructor_malformed_throws (jsonParse : JSString → Parsed) (blob m : JSString)
    (hblob : blob ≠ []) (hparse : jsonParse blob = Parsed.syntaxError m) :
    constructor jsonParse (some blob) = Except.error m ∧
    constructor jsonParse none = Except.ok (engineOf defaultState) ∧
    (engineOf defaultState).tasks = [] ∧ (engineOf defaultState).history = [] ∧
    (engineOf defaultState).settings = { theme := "void".toList } ∧
    (engineOf defaultState).currentFocus = none := by
  refine ⟨?_, rfl, rfl, rfl, rfl, rfl⟩
  unfold constructor loadState
  cases blob with
  | nil => exact absurd rfl hblob
  | cons c cs =>
    simp only [List.isEmpty_cons, Bool.false_eq_true, if_false, hparse]

theorem constructor_malformed_throws_witness :
    constructor (fun _ => Parsed.syntaxError "Unexpected end of JSON input".toList)
      (some "\x7b".toList) = Except.error "Unexpected end of JSON input".toList :=
  (constructor_malformed_throws (fun _ => Parsed.syntaxError "Unexpected end of JSON input".toList)
    "\x7b".toList "Unexpected end of JSON input".toList (by decide) rfl).1

/-- C9, the claim as stated fails: in the zone America/Nuuk, on Friday
2026-03-27 at 23:30 local time (2026-03-28T01:30Z), "comprar leche mañana" gets
a `due` of Sunday 2026-03-29 at 09:00 local time (10:00Z), two calendar days
later.  `setDate` asks for Saturday 23:30, which the change of the clocks
skips and which is read as Sunday 00:30; `setHours` then stays on Sunday.  The
next calendar day at 09:00 would be 1774695600000. -/
theorem parseInput_due_skips_a_day :
    Occurs "mañana".toList (nuukHost.toLowerCase "comprar leche mañana".toList) ∧
    (parseInput nuukHost "comprar leche mañana".toList
        ⟨1774661400000, 1774661400000, 1774661400000⟩).due = some 1774778400000 ∧
    localDay nuukHost 1774661400000 = 20539 ∧
    localDay nuukHost 1774778400000 = 20541 ∧
    localClock nuukHost 1774778400000 = 9 * 3600000 ∧
    localDay nuukHost 1774695600000 = 20540 ∧
    localClock nuukHost 1774695600000 = 9 * 3600000 :=
  ⟨(includes_iff _ _).1 (by decide), by decide, by decide, by decide, by decide, by decide,
    by decide⟩

/-- C9, amended. `parseInput` sets `due` from the keywords in the lower-cased
text: with "mañana" (also when "hoy" occurs too) to 09:00 local time of the
next calendar day, as long as no change of the clocks moves the present time of
day, taken on the next day, into another day, and 09:00 exists on that day;
otherwise with "hoy" to 20:00 local time of the same day, as long as 20:00
exists on it; otherwise `due` stays null.  For "comprar leche mañana", which
lower-casing leaves as it is, `due` is the next day at 09:00 under the same
conditions, and the priority is 1. -/
theorem parseInput_due (h : Host) (text : JSString) (clk : ClockReads) :
    (Occurs "mañana".toList (h.toLowerCase text) →
      KeepsDay h (localValue h clk.dueNow + 86400000) →
      ExistsLocally h ((localDay h clk.dueNow + 1) * 86400000 + 9 * 3600000) →
      ∃ d, (parseInput h text clk).due = some d ∧
        localDay h d = localDay h clk.dueNow + 1 ∧ localClock h d = 9 * 3600000) ∧
    (¬ Occurs "mañana".toList (h.toLowerCase text) →
      Occurs "hoy".toList (h.toLowerCase text) →
      ExistsLocally h (localDay h clk.dueNow * 86400000 + 20 * 3600000) →
      ∃ d, (parseInput h text clk).due = some d ∧
        localDay h d = localDay h clk.dueNow ∧ localClock h d = 20 * 3600000) ∧
    (¬ Occurs "mañana".toList (h.toLowerCase text) →
      ¬ Occurs "hoy".toList (h.toLowerCase text) →
      (parseInput h text clk).due = none) ∧
    (h.toLowerCase "comprar leche mañana".toList = "comprar leche mañana".toList →
      KeepsDay h (localValue h clk.dueNow + 86400000) →
      ExistsLocally h ((localDay h clk.dueNow + 1) * 86400000 + 9 * 3600000) →
      (parseInput h "comprar leche mañana".toList clk).priority = 1 ∧
      ∃ d, (parseInput h "comprar leche mañana".toList clk).due = some d ∧
        localDay h d = localDay h clk.dueNow + 1 ∧ localClock h d = 9 * 3600000) := by
  have tomorrow : ∀ t : JSString, Occurs "mañana".toList (h.toLowerCase t) →
      KeepsDay h (localValue h clk.dueNow + 86400000) →
      ExistsLocally h ((localDay h clk.dueNow + 1) * 86400000 + 9 * 3600000) →
      ∃ d, (parseInput h t clk).due = some d ∧
        localDay h d = localDay h clk.dueNow + 1 ∧ localClock h d = 9 * 3600000 := by
    intro t ht hk he
    have hi : includes (h.toLowerCase t) kwTomorrow = true := (includes_iff _ _).2 ht
    exact ⟨_, by rw [parseInput_due_eq, if_pos hi], due_tomorrow_spec h clk.dueNow hk he⟩
  refine ⟨tomorrow text, ?_, ?_, ?_⟩
  · intro h1 h2 he
    have i1 : ¬ includes (h.toLowerCase text) kwTomorrow = true :=
      fun hi => h1 ((includes_iff _ _).1 hi)
    have i2 : includes (h.toLowerCase text) kwToday = true := (includes_iff _ _).2 h2
    exact ⟨_, by rw [parseInput_due_eq, if_neg i1, if_pos i2], due_today_spec h clk.dueNow he⟩
  · intro h1 h2
    have i1 : ¬ includes (h.toLowerCase text) kwTomorrow = true :=
      fun hi => h1 ((includes_iff _ _).1 hi)
    have i2 : ¬ includes (h.toLowerCase text) kwToday = true :=
      fun hi => h2 ((includes_iff _ _).1 hi)
    rw [parseInput_due_eq, if_neg i1, if_neg i2]
  · intro hl hk he
    refine ⟨?_, tomorrow _ ((includes_iff _ _).1 (by rw [hl]; decide)) hk he⟩
    rw [parseInput_priority_eq, hl]
    decide

theorem parseInput_due_witness :
    (parseInput latinHost "comprar leche mañana".toList
        ⟨1774737000000, 1774737000000, 1774737000000⟩).due = some 1774767600000 ∧
    (parseInput latinHost "comprar leche mañana".toList
        ⟨1762297200001, 1762297200001, 1762297200001⟩).due = some 1762416000000 ∧
    (parseInput latinHost "pagar la luz hoy".toList
        ⟨1774737000000, 1774737000000, 1774737000000⟩).due = some 1774724400000 ∧
    ((parseInput latinHost "comprar leche mañana".toList
        ⟨1774737000000, 1774737000000, 1774737000000⟩).priority = 1 ∧
      ∃ d, (parseInput latinHost "comprar leche mañana".toList
          ⟨1774737000000, 1774737000000, 1774737000000⟩).due = some d ∧
        localDay latinHost d = localDay latinHost 1774737000000 + 1 ∧
        localClock latinHost d = 9 * 3600000) ∧
    (∃ d, (parseInput latinHost "Hoy o MAÑANA".toList
          ⟨1774737000000, 1774737000000, 1774737000000⟩).due = some d ∧
        localDay latinHost d = localDay latinHost 1774737000000 + 1 ∧
        localClock latinHost d = 9 * 3600000) ∧
    (∃ d, (parseInput latinHost "pagar la luz hoy".toList
          ⟨1774737000000, 1774737000000, 1774737000000⟩).due = some d ∧
        localDay latinHost d = localDay latinHost 1774737000000 ∧
        localClock latinHost d = 20 * 3600000) ∧
    (parseInput latinHost "leer".toList
        ⟨1774737000000, 1774737000000, 1774737000000⟩).due = none :=
  ⟨by decide, by decide, by decide,
   (parseInput_due latinHost "comprar leche mañana".toList
      ⟨1774737000000, 1774737000000, 1774737000000⟩).2.2.2 (by decide)
      (latinHost_regular _ 0).1 (latinHost_regular 0 _).2.1,
   (parseInput_due latinHost "Hoy o MAÑANA".toList
      ⟨1774737000000, 1774737000000, 1774737000000⟩).1
      ((includes_iff _ _).1 (by decide)) (latinHost_regular _ 0).1 (latinHost_regular 0 _).2.1,
   (parseInput_due latinHost "pagar la luz hoy".toList
      ⟨1774737000000, 1774737000000, 1774737000000⟩).2.1
      (fun ho => absurd ((includes_iff _ _).2 ho) (by decide))
      ((includes_iff _ _).1 (by decide)) (latinHost_regular 0 _).2.2,
   (parseInput_due latinHost "leer".toList
      ⟨1774737000000, 1774737000000, 1774737000000⟩).2.2.1
      (fun ho => absurd ((includes_iff _ _).2 ho) (by decide))
      (fun ho => absurd ((includes_iff _ _).2 ho) (by decide))⟩

/-- C6. `parseInput` gives priority 3 when the lower-cased text contains
"urgente", "ahora" or "ya", and priority 1 otherwise; with priority 3 the title
is the text with all occurrences of the tokens stripped, whatever the case of
their letters, and then trimmed, and it is the only string that is so.  For
"urgente llamar a mamá", which lower-casing leaves as it is, the priority is 3
and the title "llamar a mamá". -/
theorem parseInput_urgency (h : Host) (text : JSString) (clk : ClockReads) :
    ((Occurs "urgente".toList (h.toLowerCase text) ∨
        Occurs "ahora".toList (h.toLowerCase text) ∨
        Occurs "ya".toList (h.toLowerCase text)) →
      (parseInput h text clk).priority = 3 ∧
      (∃ out, StripsTo text out ∧ IsTrimOf out (parseInput h text clk).title) ∧
      (∀ out t, StripsTo text out → IsTrimOf out t → t = (parseInput h text clk).title)) ∧
    (¬ (Occurs "urgente".toList (h.toLowerCase text) ∨
        Occurs "ahora".toList (h.toLowerCase text) ∨
        Occurs "ya".toList (h.toLowerCase text)) →
      (parseInput h text clk).priority = 1) ∧
    (h.toLowerCase "urgente llamar a mamá".toList = "urgente llamar a mamá".toList →
      (parseInput h "urgente llamar a mamá".toList clk).priority = 3 ∧
      (parseInput h "urgente llamar a mamá".toList clk).title = "llamar a mamá".toList) := by
  have hiff : (includes (h.toLowerCase text) "urgente".toList ||
        includes (h.toLowerCase text) "ahora".toList ||
        includes (h.toLowerCase text) "ya".toList) = true ↔
      (Occurs "urgente".toList (h.toLowerCase text) ∨
        Occurs "ahora".toList (h.toLowerCase text) ∨
        Occurs "ya".toList (h.toLowerCase text)) := by
    rw [Bool.or_eq_true, Bool.or_eq_true, includes_iff, includes_iff, includes_iff, or_assoc]
  refine ⟨?_, ?_, ?_⟩
  · intro hu
    have hc := hiff.2 hu
    have htitle : (parseInput h text clk).title = trim (replaceUrgency text) := by
      rw [parseInput_title_eq, if_pos hc]
    refine ⟨?_, ?_, ?_⟩
    · rw [parseInput_priority_eq, if_pos hc]
    · exact ⟨replaceUrgency text, stripsTo_replaceUrgency text, by
        rw [htitle]
        exact isTrimOf_trim _⟩
    · intro out t hs ht
      rw [htitle, ← (stripsTo_iff text out).1 hs]
      exact isTrimOf_unique out t ht
  · intro hu
    have hc : ¬ (includes (h.toLowerCase text) "urgente".toList ||
        includes (h.toLowerCase text) "ahora".toList ||
        includes (h.toLowerCase text) "ya".toList) = true := fun hc => hu (hiff.1 hc)
    rw [parseInput_priority_eq, if_neg hc]
  · intro hl
    constructor
    · rw [parseInput_priority_eq, hl]
      decide
    · rw [parseInput_title_eq, hl]
      decide

theorem parseInput_urgency_witness :
    ((parseInput latinHost "urgente llamar a mamá".toList
        ⟨1762297200001, 1762297200001, 1762297200001⟩).priority = 3 ∧
      (parseInput latinHost "urgente llamar a mamá".toList
        ⟨1762297200001, 1762297200001, 1762297200001⟩).title = "llamar a mamá".toList) ∧
    (parseInput latinHost "Comprar pan".toList
        ⟨1762297200001, 1762297200001, 1762297200001⟩).priority = 1 ∧
    ((parseInput latinHost "pagar YA la luz  ".toList
        ⟨1762297200001, 1762297200001, 1762297200001⟩).priority = 3 ∧
      (∃ out, StripsTo "pagar YA la luz  ".toList out ∧
        IsTrimOf out (parseInput latinHost "pagar YA la luz  ".toList
          ⟨1762297200001, 1762297200001, 1762297200001⟩).title) ∧
      (∀ out t, StripsTo "pagar YA la luz  ".toList out → IsTrimOf out t →
        t = (parseInput latinHost "pagar YA la luz  ".toList
          ⟨1762297200001, 1762297200001, 1762297200001⟩).title)) ∧
    (parseInput latinHost "pagar YA la luz  ".toList
        ⟨1762297200001, 1762297200001, 1762297200001⟩).title = "pagar  la luz".toList ∧
    (parseInput latinHost "  UrGeNtE: pagar Ahora ".toList
        ⟨1762297200001, 1762297200001, 1762297200001⟩).title = ": pagar".toList :=
  ⟨(parseInput_urgency latinHost "urgente llamar a mamá".toList
      ⟨1762297200001, 1762297200001, 1762297200001⟩).2.2 (by decide),
   (parseInput_urgency latinHost "Comprar pan".toList
      ⟨1762297200001, 1762297200001, 1762297200001⟩).2.1
      (fun ho => absurd
        (ho.elim (includes_iff _ _).2 (fun ho2 => ho2.elim (includes_iff _ _).2
          (fun ho3 => absurd ((includes_iff _ _).2 ho3) (by decide))))
        (by decide)),
   (parseInput_urgency latinHost "pagar YA la luz  ".toList
      ⟨1762297200001, 1762297200001, 1762297200001⟩).1
      (Or.inr (Or.inr ((includes_iff _ _).1 (by decide)))),
   by decide, by decide⟩

end Zenith
